import Mathlib

/-!
Verification of the similarity-metrics core (src/string_distances.rs and
src/main.rs): the Wagner-Fischer edit-distance table, the similarity
normalizer, the comparison facade, and the duplicate distance
implementation in main.rs.
-/

set_option maxHeartbeats 1000000

namespace SimilarityMetrics

/-- Cell `(i, j)` of the Wagner-Fischer table built by `damerau_levenshtein`
in `src/string_distances.rs` (lines 44-76).  The source initializes
`distance[i][0] = i` and `distance[0][j] = j`, then for `i` in `1..=m`,
`j` in `1..=n` sets `distance[i][j] = distance[i-1][j-1]` when
`log_one[i-1] == log_two[j-1]` and otherwise
`min (min (distance[i-1][j] + 1) (distance[i][j-1] + 1)) (distance[i-1][j-1] + 1)`.
Here the cell at `(i+1, j+1)` reads tokens `a[i]` and `b[j]` (total via
`getD` with default `""`; `damerau_levenshtein` only evaluates in-range
cells, where `getD` agrees with the source's panicking index). -/
def dlEntry (a b : List String) : Nat → Nat → Nat
  | i, 0 => i
  | 0, j + 1 => j + 1
  | i + 1, j + 1 =>
    if a.getD i "" = b.getD j "" then
      dlEntry a b i j
    else
      min (min (dlEntry a b i (j + 1) + 1) (dlEntry a b (i + 1) j + 1))
        (dlEntry a b i j + 1)
termination_by i j => i + j
decreasing_by all_goals omega

/-- Embedding of `damerau_levenshtein` from `src/string_distances.rs`
(lines 44-76): the bottom-right cell `distance[m][n]` of the table. -/
def damerau_levenshtein (log_one log_two : List String) : Nat :=
  dlEntry log_one log_two log_one.length log_two.length

/-- Auxiliary structural recursion used in the proofs: edit distance that
peels tokens from the front.  `dlEntry a b i j` is shown equal to
`lev (a.take i).reverse (b.take j).reverse`. -/
def lev : List String → List String → Nat
  | [], ys => ys.length
  | _ :: xs, [] => xs.length + 1
  | x :: xs, y :: ys =>
    if x = y then lev xs ys
    else
      min (min (lev xs (y :: ys) + 1) (lev (x :: xs) ys + 1)) (lev xs ys + 1)
termination_by u v => u.length + v.length
decreasing_by all_goals simp +arith

/-- Embedding of `similarity` from `src/string_distances.rs` (lines 80-82),
with the source's `f64` arithmetic modelled by exact rationals:
`1.0 - (distance as f64 / length as f64)`.  Rational division by zero is
`0`, so the `length = 0` case of the model diverges from IEEE `f64`. -/
def similarity (distance length : Nat) : ℚ :=
  1 - (distance : ℚ) / (length : ℚ)

/-- Model of `damerau_levenshtein_on_logs` from `src/string_distances.rs`
(lines 25-41) after tokenization: the CSV loading and column concatenation
(`load_log_df`, `concatenate_columns`) are the upstream collaborator and
are abstracted as already having produced the two token sequences
`a_col` and `b_col`; the facade then returns
`(damerau_levenshtein a_col b_col, similarity distance a_col.len())`. -/
def damerau_levenshtein_on_logs (a_col b_col : List String) : Nat × ℚ :=
  let distance := damerau_levenshtein a_col b_col
  (distance, similarity distance a_col.length)

/-- Cell `(i, j)` of the table built by `distance_polars` in
`src/main.rs` (lines 171-203); the loop body is identical to the one in
`damerau_levenshtein`, embedded separately to compare the two. -/
def dpEntry (log1 log2 : List String) : Nat → Nat → Nat
  | i, 0 => i
  | 0, j + 1 => j + 1
  | i + 1, j + 1 =>
    if log1.getD i "" = log2.getD j "" then
      dpEntry log1 log2 i j
    else
      min (min (dpEntry log1 log2 i (j + 1) + 1) (dpEntry log1 log2 (i + 1) j + 1))
        (dpEntry log1 log2 i j + 1)
termination_by i j => i + j
decreasing_by all_goals omega

/-- Embedding of `distance_polars` from `src/main.rs` (lines 171-203):
computes the same table and always returns `Ok(distance[m][n])`; the
`Box<dyn Error>` error type is modelled by `String`. -/
def distance_polars (log1 log2 : List String) : Except String Nat :=
  Except.ok (dpEntry log1 log2 log1.length log2.length)

/-- One token-level edit: insert one token, delete one token, or
substitute one token for another, anywhere in the sequence. -/
inductive EditStep : List String → List String → Prop
  | ins (l r : List String) (x : String) : EditStep (l ++ r) (l ++ x :: r)
  | del (l r : List String) (x : String) : EditStep (l ++ x :: r) (l ++ r)
  | sub (l r : List String) (x y : String) : EditStep (l ++ x :: r) (l ++ y :: r)

/-- `CostedEdits n a b` holds when `a` can be transformed into `b` by a
chain of exactly `n` single-token edits. -/
inductive CostedEdits : Nat → List String → List String → Prop
  | refl (a : List String) : CostedEdits 0 a a
  | step {n : Nat} {a b c : List String} :
      EditStep a b → CostedEdits n b c → CostedEdits (n + 1) a c

theorem lev_nil_left (v : List String) : lev [] v = v.length := by
  simp [lev]

theorem lev_nil_right (u : List String) : lev u [] = u.length := by
  cases u <;> simp [lev]

theorem lev_cons_cons (x y : String) (xs ys : List String) :
    lev (x :: xs) (y :: ys) =
      if x = y then lev xs ys
      else min (min (lev xs (y :: ys) + 1) (lev (x :: xs) ys + 1)) (lev xs ys + 1) := by
  simp [lev]

theorem lev_self (u : List String) : lev u u = 0 := by
  induction u with
  | nil => rw [lev_nil_left]; rfl
  | cons x xs ih => rw [lev_cons_cons, if_pos rfl, ih]

theorem lev_comm (u : List String) : ∀ v, lev u v = lev v u := by
  induction u with
  | nil => intro v; rw [lev_nil_left, lev_nil_right]
  | cons x xs ih =>
    intro v
    induction v with
    | nil => rw [lev_nil_left, lev_nil_right]
    | cons y ys ih2 =>
      rw [lev_cons_cons, lev_cons_cons]
      by_cases hxy : x = y
      · rw [if_pos hxy, if_pos hxy.symm, ih ys]
      · rw [if_neg hxy, if_neg (Ne.symm hxy), ih (y :: ys), ih2, ih ys,
          min_comm (lev (y :: ys) xs + 1) (lev ys (x :: xs) + 1)]

theorem eq_of_lev_eq_zero : ∀ u v : List String, lev u v = 0 → u = v := by
  intro u
  induction u with
  | nil =>
    intro v h
    rw [lev_nil_left] at h
    exact (List.length_eq_zero.mp h).symm
  | cons x xs ih =>
    intro v h
    cases v with
    | nil => rw [lev_nil_right] at h; simp at h
    | cons y ys =>
      rw [lev_cons_cons] at h
      by_cases hxy : x = y
      · rw [if_pos hxy] at h
        rw [hxy, ih ys h]
      · rw [if_neg hxy] at h
        omega

theorem length_le_lev_add (u : List String) :
    ∀ v : List String, v.length ≤ lev u v + u.length := by
  induction u with
  | nil => intro v; rw [lev_nil_left]; simp
  | cons x xs ih =>
    intro v
    induction v with
    | nil => simp
    | cons y ys ih2 =>
      have h1 := ih (y :: ys)
      have h2 := ih2
      have h3 := ih ys
      rw [lev_cons_cons]
      by_cases hxy : x = y
      · rw [if_pos hxy]; simp only [List.length_cons] at *; omega
      · rw [if_neg hxy]; simp only [List.length_cons] at *; omega

theorem lev_cons_lip :
    ∀ N (u v : List String) (x : String), u.length + v.length ≤ N →
      lev (x :: u) v ≤ 1 + lev u v ∧ lev u v ≤ 1 + lev (x :: u) v := by
  intro N
  induction N with
  | zero =>
    intro u v x h
    have hu : u = [] := List.length_eq_zero.mp (by omega)
    have hv : v = [] := List.length_eq_zero.mp (by omega)
    subst hu; subst hv
    rw [lev_nil_right, lev_nil_right]
    simp
  | succ N ih =>
    intro u v x h
    constructor
    · cases v with
      | nil => rw [lev_nil_right, lev_nil_right]; simp only [List.length_cons]; omega
      | cons y ys =>
        rw [lev_cons_cons]
        by_cases hxy : x = y
        · rw [if_pos hxy]
          have h2 := (ih ys u y (by simp only [List.length_cons] at h; omega)).2
          rw [lev_comm u ys, lev_comm u (y :: ys)]
          exact h2
        · rw [if_neg hxy]
          omega
    · cases v with
      | nil => rw [lev_nil_right, lev_nil_right]; simp only [List.length_cons]; omega
      | cons y ys =>
        have hA : lev u (y :: ys) ≤ 1 + lev u ys := by
          rw [lev_comm u (y :: ys), lev_comm u ys]
          exact (ih ys u y (by simp only [List.length_cons] at h; omega)).1
        rw [lev_cons_cons]
        by_cases hxy : x = y
        · rw [if_pos hxy]
          exact hA
        · rw [if_neg hxy]
          have hB := (ih u ys x (by simp only [List.length_cons] at h; omega)).2
          omega

theorem lev_cons_le (x : String) (u v : List String) :
    lev (x :: u) v ≤ 1 + lev u v :=
  (lev_cons_lip (u.length + v.length) u v x le_rfl).1

theorem lev_le_cons (x : String) (u v : List String) :
    lev u v ≤ 1 + lev (x :: u) v :=
  (lev_cons_lip (u.length + v.length) u v x le_rfl).2

theorem lev_sub_head (x y : String) (u : List String) :
    ∀ v : List String, lev (x :: u) v ≤ 1 + lev (y :: u) v := by
  intro v
  induction v with
  | nil =>
    rw [lev_nil_right, lev_nil_right]
    simp only [List.length_cons]
    omega
  | cons w ws ih =>
    rw [lev_cons_cons, lev_cons_cons]
    by_cases hxw : x = w <;> by_cases hyw : y = w
    · rw [if_pos hxw, if_pos hyw]; omega
    · rw [if_pos hxw, if_neg hyw]
      have hA : lev u ws ≤ 1 + lev u (w :: ws) := by
        rw [lev_comm u ws, lev_comm u (w :: ws)]
        exact lev_le_cons w ws u
      have hB : lev u ws ≤ 1 + lev (y :: u) ws := lev_le_cons y u ws
      omega
    · rw [if_neg hxw, if_pos hyw]; omega
    · rw [if_neg hxw, if_neg hyw]; omega

theorem lev_del_mid (r : List String) (x : String) :
    ∀ (l : List String) (v : List String), lev (l ++ x :: r) v ≤ 1 + lev (l ++ r) v := by
  intro l
  induction l with
  | nil => simpa using fun v => lev_cons_le x r v
  | cons z l ihl =>
    intro v
    induction v with
    | nil =>
      rw [lev_nil_right, lev_nil_right]
      simp only [List.length_cons, List.length_append]
      omega
    | cons w ws ihv =>
      simp only [List.cons_append] at *
      rw [lev_cons_cons, lev_cons_cons]
      by_cases hzw : z = w
      · rw [if_pos hzw, if_pos hzw]
        exact ihl ws
      · rw [if_neg hzw, if_neg hzw]
        have h1 := ihl (w :: ws)
        have h2 := ihv
        have h3 := ihl ws
        omega

theorem lev_ins_mid (r : List String) (x : String) :
    ∀ (l : List String) (v : List String), lev (l ++ r) v ≤ 1 + lev (l ++ x :: r) v := by
  intro l
  induction l with
  | nil => simpa using fun v => lev_le_cons x r v
  | cons z l ihl =>
    intro v
    induction v with
    | nil =>
      rw [lev_nil_right, lev_nil_right]
      simp only [List.length_cons, List.length_append]
      omega
    | cons w ws ihv =>
      simp only [List.cons_append] at *
      rw [lev_cons_cons, lev_cons_cons]
      by_cases hzw : z = w
      · rw [if_pos hzw, if_pos hzw]
        exact ihl ws
      · rw [if_neg hzw, if_neg hzw]
        have h1 := ihl (w :: ws)
        have h2 := ihv
        have h3 := ihl ws
        omega

theorem lev_sub_mid (r : List String) (x y : String) :
    ∀ (l : List String) (v : List String), lev (l ++ x :: r) v ≤ 1 + lev (l ++ y :: r) v := by
  intro l
  induction l with
  | nil => simpa using fun v => lev_sub_head x y r v
  | cons z l ihl =>
    intro v
    induction v with
    | nil =>
      rw [lev_nil_right, lev_nil_right]
      simp only [List.length_cons, List.length_append]
      omega
    | cons w ws ihv =>
      simp only [List.cons_append] at *
      rw [lev_cons_cons, lev_cons_cons]
      by_cases hzw : z = w
      · rw [if_pos hzw, if_pos hzw]
        exact ihl ws
      · rw [if_neg hzw, if_neg hzw]
        have h1 := ihl (w :: ws)
        have h2 := ihv
        have h3 := ihl ws
        omega

theorem lev_editStep_le {u w : List String} (h : EditStep u w) (v : List String) :
    lev u v ≤ 1 + lev w v := by
  cases h with
  | ins l r x => exact lev_ins_mid r x l v
  | del l r x => exact lev_del_mid r x l v
  | sub l r x y => exact lev_sub_mid r x y l v

theorem lev_le_of_costedEdits : ∀ {n : Nat} {u v : List String},
    CostedEdits n u v → lev u v ≤ n := by
  intro n u v h
  induction h with
  | refl a => rw [lev_self]
  | step hs hc ih =>
    rename_i n' a' b' c'
    have := lev_editStep_le hs c'
    omega

theorem costedEdits_comp : ∀ {m : Nat} {a b : List String}, CostedEdits m a b →
    ∀ {n : Nat} {c : List String}, CostedEdits n b c → CostedEdits (m + n) a c := by
  intro m a b h
  induction h with
  | refl a => intro n c h2; simpa using h2
  | step hs _ ih =>
    intro n c h2
    have := CostedEdits.step hs (ih h2)
    simpa [Nat.succ_add] using this

theorem editStep_cons {a b : List String} (c : String) (h : EditStep a b) :
    EditStep (c :: a) (c :: b) := by
  cases h with
  | ins l r x => exact EditStep.ins (c :: l) r x
  | del l r x => exact EditStep.del (c :: l) r x
  | sub l r x y => exact EditStep.sub (c :: l) r x y

theorem costedEdits_cons {n : Nat} {a b : List String} (c : String)
    (h : CostedEdits n a b) : CostedEdits n (c :: a) (c :: b) := by
  induction h with
  | refl a => exact CostedEdits.refl (c :: a)
  | step hs _ ih => exact CostedEdits.step (editStep_cons c hs) ih

theorem costedEdits_single {a b : List String} (h : EditStep a b) :
    CostedEdits 1 a b :=
  CostedEdits.step h (CostedEdits.refl b)

theorem costedEdits_nil_left : ∀ v : List String, CostedEdits v.length [] v := by
  intro v
  induction v with
  | nil => exact CostedEdits.refl []
  | cons y ys ih =>
    exact CostedEdits.step (EditStep.ins [] [] y) (costedEdits_cons y ih)

theorem costedEdits_nil_right : ∀ u : List String, CostedEdits u.length u [] := by
  intro u
  induction u with
  | nil => exact CostedEdits.refl []
  | cons x xs ih =>
    exact CostedEdits.step (EditStep.del [] xs x) ih

theorem costedEdits_lev :
    ∀ N (u v : List String), u.length + v.length ≤ N → CostedEdits (lev u v) u v := by
  intro N
  induction N with
  | zero =>
    intro u v h
    have hu : u = [] := List.length_eq_zero.mp (by omega)
    have hv : v = [] := List.length_eq_zero.mp (by omega)
    subst hu; subst hv
    rw [lev_nil_left]
    exact CostedEdits.refl []
  | succ N ih =>
    intro u v h
    match u, v with
    | [], v =>
      rw [lev_nil_left]
      exact costedEdits_nil_left v
    | x :: xs, [] =>
      rw [lev_nil_right]
      exact costedEdits_nil_right (x :: xs)
    | x :: xs, y :: ys =>
      simp only [List.length_cons] at h
      rw [lev_cons_cons]
      by_cases hxy : x = y
      · rw [if_pos hxy]
        subst hxy
        exact costedEdits_cons x (ih xs ys (by omega))
      · rw [if_neg hxy]
        rcases min_choice (min (lev xs (y :: ys) + 1) (lev (x :: xs) ys + 1))
            (lev xs ys + 1) with hmin | hmin
        · rcases min_choice (lev xs (y :: ys) + 1) (lev (x :: xs) ys + 1) with
            hmin2 | hmin2
          · rw [hmin, hmin2]
            have hc := ih xs (y :: ys) (by simp only [List.length_cons]; omega)
            have hd : EditStep (x :: xs) xs := EditStep.del [] xs x
            simpa [Nat.add_comm] using costedEdits_comp (costedEdits_single hd) hc
          · rw [hmin, hmin2]
            have hc := ih (x :: xs) ys (by simp only [List.length_cons]; omega)
            have hi2 : EditStep ys (y :: ys) := EditStep.ins [] ys y
            exact costedEdits_comp hc (costedEdits_single hi2)
        · rw [hmin]
          have hc := ih xs ys (by omega)
          have hs : EditStep (x :: xs) (y :: xs) := EditStep.sub [] xs x y
          simpa [Nat.add_comm] using
            costedEdits_comp (costedEdits_single hs) (costedEdits_cons y hc)

theorem costedEdits_lev_self (u v : List String) : CostedEdits (lev u v) u v :=
  costedEdits_lev (u.length + v.length) u v le_rfl

theorem lev_triangle (u v w : List String) : lev u w ≤ lev u v + lev v w :=
  lev_le_of_costedEdits
    (costedEdits_comp (costedEdits_lev_self u v) (costedEdits_lev_self v w))

theorem editStep_reverse {a b : List String} (h : EditStep a b) :
    EditStep a.reverse b.reverse := by
  cases h with
  | ins l r x =>
    simpa [List.reverse_append, List.reverse_cons, List.append_assoc] using
      EditStep.ins r.reverse l.reverse x
  | del l r x =>
    simpa [List.reverse_append, List.reverse_cons, List.append_assoc] using
      EditStep.del r.reverse l.reverse x
  | sub l r x y =>
    simpa [List.reverse_append, List.reverse_cons, List.append_assoc] using
      EditStep.sub r.reverse l.reverse x y

theorem costedEdits_reverse {n : Nat} {a b : List String} (h : CostedEdits n a b) :
    CostedEdits n a.reverse b.reverse := by
  induction h with
  | refl a => exact CostedEdits.refl a.reverse
  | step hs _ ih => exact CostedEdits.step (editStep_reverse hs) ih

theorem editStep_symm {a b : List String} (h : EditStep a b) : EditStep b a := by
  cases h with
  | ins l r x => exact EditStep.del l r x
  | del l r x => exact EditStep.ins l r x
  | sub l r x y => exact EditStep.sub l r y x

theorem costedEdits_symm {n : Nat} {a b : List String} (h : CostedEdits n a b) :
    CostedEdits n b a := by
  induction h with
  | refl a => exact CostedEdits.refl a
  | step hs _ ih =>
    simpa using costedEdits_comp ih (costedEdits_single (editStep_symm hs))

theorem dlEntry_right_zero (a b : List String) (i : Nat) : dlEntry a b i 0 = i := by
  cases i <;> simp [dlEntry]

theorem dlEntry_zero_succ (a b : List String) (j : Nat) :
    dlEntry a b 0 (j + 1) = j + 1 := by
  simp [dlEntry]

theorem dlEntry_succ_succ (a b : List String) (i j : Nat) :
    dlEntry a b (i + 1) (j + 1) =
      if a.getD i "" = b.getD j "" then dlEntry a b i j
      else min (min (dlEntry a b i (j + 1) + 1) (dlEntry a b (i + 1) j + 1))
        (dlEntry a b i j + 1) := by
  rw [dlEntry]

theorem take_succ_reverse (l : List String) (n : Nat) (h : n < l.length) :
    (l.take (n + 1)).reverse = l.getD n "" :: (l.take n).reverse := by
  rw [List.take_succ, List.getD_eq_getElem l "" h]
  simp [List.getElem?_eq_getElem h]

theorem dlEntry_eq_lev :
    ∀ N (a b : List String) (i j : Nat), i + j ≤ N → i ≤ a.length → j ≤ b.length →
      dlEntry a b i j = lev (a.take i).reverse (b.take j).reverse := by
  intro N
  induction N with
  | zero =>
    intro a b i j hN hi hj
    have hi0 : i = 0 := by omega
    have hj0 : j = 0 := by omega
    subst hi0; subst hj0
    rw [dlEntry_right_zero]
    simp [lev_nil_left]
  | succ N ih =>
    intro a b i j hN hi hj
    cases j with
    | zero =>
      rw [dlEntry_right_zero]
      simp only [List.take_zero, List.reverse_nil, lev_nil_right,
        List.length_reverse, List.length_take]
      omega
    | succ j =>
      cases i with
      | zero =>
        rw [dlEntry_zero_succ]
        simp only [List.take_zero, List.reverse_nil, lev_nil_left,
          List.length_reverse, List.length_take]
        omega
      | succ i =>
        have hi' : i < a.length := by omega
        have hj' : j < b.length := by omega
        rw [dlEntry_succ_succ, take_succ_reverse a i hi', take_succ_reverse b j hj',
          lev_cons_cons, ← take_succ_reverse a i hi', ← take_succ_reverse b j hj',
          ih a b i j (by omega) (by omega) (by omega),
          ih a b i (j + 1) (by omega) (by omega) (by omega),
          ih a b (i + 1) j (by omega) (by omega) (by omega)]

theorem damerau_levenshtein_eq_lev (a b : List String) :
    damerau_levenshtein a b = lev a.reverse b.reverse := by
  unfold damerau_levenshtein
  rw [dlEntry_eq_lev (a.length + b.length) a b a.length b.length le_rfl le_rfl le_rfl,
    List.take_length, List.take_length]

theorem damerau_levenshtein_self (t : List String) : damerau_levenshtein t t = 0 := by
  rw [damerau_levenshtein_eq_lev, lev_self]

theorem damerau_levenshtein_comm (a b : List String) :
    damerau_levenshtein a b = damerau_levenshtein b a := by
  rw [damerau_levenshtein_eq_lev, damerau_levenshtein_eq_lev, lev_comm]

theorem damerau_levenshtein_triangle (a b c : List String) :
    damerau_levenshtein a c ≤ damerau_levenshtein a b + damerau_levenshtein b c := by
  rw [damerau_levenshtein_eq_lev, damerau_levenshtein_eq_lev, damerau_levenshtein_eq_lev]
  exact lev_triangle a.reverse b.reverse c.reverse

theorem costedEdits_damerau_levenshtein (a b : List String) :
    CostedEdits (damerau_levenshtein a b) a b := by
  rw [damerau_levenshtein_eq_lev]
  simpa using costedEdits_reverse (costedEdits_lev_self a.reverse b.reverse)

theorem damerau_levenshtein_le_of_costedEdits {n : Nat} {a b : List String}
    (h : CostedEdits n a b) : damerau_levenshtein a b ≤ n := by
  rw [damerau_levenshtein_eq_lev]
  exact lev_le_of_costedEdits (costedEdits_reverse h)

theorem eq_of_damerau_levenshtein_eq_zero {a b : List String}
    (h : damerau_levenshtein a b = 0) : a = b := by
  rw [damerau_levenshtein_eq_lev] at h
  have := eq_of_lev_eq_zero a.reverse b.reverse h
  simpa using congrArg List.reverse this

theorem damerau_levenshtein_nil_left (b : List String) :
    damerau_levenshtein [] b = b.length := by
  rw [damerau_levenshtein_eq_lev]
  show lev [] b.reverse = b.length
  rw [lev_nil_left, List.length_reverse]

theorem damerau_levenshtein_nil_right (a : List String) :
    damerau_levenshtein a [] = a.length := by
  rw [damerau_levenshtein_eq_lev]
  show lev a.reverse [] = a.length
  rw [lev_nil_right, List.length_reverse]

theorem damerau_levenshtein_single_diff (a b : List String)
    (hlen : a.length = b.length) (k : Nat) (hk : k < a.length)
    (hdiff : a.getD k "" ≠ b.getD k "")
    (hsame : ∀ i, i < a.length → i ≠ k → a.getD i "" = b.getD i "") :
    damerau_levenshtein a b = 1 := by
  have hk2 : k < b.length := hlen ▸ hk
  have htake : a.take k = b.take k := by
    apply List.ext_getElem (by simp [hlen])
    intro i h1 h2
    have hi1 : i < k := by simp at h1; omega
    have hia : i < a.length := by omega
    have hs := hsame i hia (by omega)
    rw [List.getD_eq_getElem a "" hia, List.getD_eq_getElem b "" (by omega)] at hs
    simpa [List.getElem_take] using hs
  have hdrop : a.drop (k + 1) = b.drop (k + 1) := by
    apply List.ext_getElem (by simp [hlen])
    intro i h1 h2
    have h1' : k + 1 + i < a.length := by simp at h1; omega
    have hs := hsame (k + 1 + i) h1' (by omega)
    rw [List.getD_eq_getElem a "" h1', List.getD_eq_getElem b "" (by omega)] at hs
    simpa [List.getElem_drop] using hs
  have ha : a = a.take k ++ a.getD k "" :: a.drop (k + 1) := by
    conv_lhs => rw [← List.take_append_drop k a]
    rw [List.drop_eq_getElem_cons hk, List.getD_eq_getElem a "" hk]
  have hb : b = a.take k ++ b.getD k "" :: a.drop (k + 1) := by
    conv_lhs => rw [← List.take_append_drop k b]
    rw [List.drop_eq_getElem_cons hk2, List.getD_eq_getElem b "" hk2, htake, hdrop]
  have hstep : EditStep a b := by
    rw [ha, hb]
    exact EditStep.sub (a.take k) (a.drop (k + 1)) (a.getD k "") (b.getD k "")
  have hub : damerau_levenshtein a b ≤ 1 :=
    damerau_levenshtein_le_of_costedEdits (costedEdits_single hstep)
  have hne : a ≠ b := fun he => hdiff (by rw [he])
  have hlb : damerau_levenshtein a b ≠ 0 :=
    fun h0 => hne (eq_of_damerau_levenshtein_eq_zero h0)
  omega

theorem dpEntry_right_zero (a b : List String) (i : Nat) : dpEntry a b i 0 = i := by
  cases i <;> simp [dpEntry]

theorem dpEntry_zero_succ (a b : List String) (j : Nat) :
    dpEntry a b 0 (j + 1) = j + 1 := by
  simp [dpEntry]

theorem dpEntry_succ_succ (a b : List String) (i j : Nat) :
    dpEntry a b (i + 1) (j + 1) =
      if a.getD i "" = b.getD j "" then dpEntry a b i j
      else min (min (dpEntry a b i (j + 1) + 1) (dpEntry a b (i + 1) j + 1))
        (dpEntry a b i j + 1) := by
  rw [dpEntry]

theorem dpEntry_eq_dlEntry :
    ∀ N (a b : List String) (i j : Nat), i + j ≤ N → dpEntry a b i j = dlEntry a b i j := by
  intro N
  induction N with
  | zero =>
    intro a b i j h
    have hi0 : i = 0 := by omega
    have hj0 : j = 0 := by omega
    subst hi0; subst hj0
    rw [dpEntry_right_zero, dlEntry_right_zero]
  | succ N ih =>
    intro a b i j h
    cases j with
    | zero => rw [dpEntry_right_zero, dlEntry_right_zero]
    | succ j =>
      cases i with
      | zero => rw [dpEntry_zero_succ, dlEntry_zero_succ]
      | succ i =>
        rw [dpEntry_succ_succ, dlEntry_succ_succ, ih a b i j (by omega),
          ih a b i (j + 1) (by omega), ih a b (i + 1) j (by omega)]

theorem distance_polars_eq_ok (log1 log2 : List String) :
    distance_polars log1 log2 = Except.ok (damerau_levenshtein log1 log2) := by
  unfold distance_polars damerau_levenshtein
  rw [dpEntry_eq_dlEntry (log1.length + log2.length) log1 log2 log1.length
    log2.length le_rfl]

theorem damerau_levenshtein_swap_pair (x y : String) (h : x ≠ y) :
    damerau_levenshtein [x, y] [y, x] = 2 := by
  rw [damerau_levenshtein_eq_lev]
  show lev [y, x] [x, y] = 2
  rw [lev_cons_cons, if_neg (Ne.symm h), lev_cons_cons, if_pos rfl,
    lev_cons_cons, if_pos rfl, lev_cons_cons, if_neg h, lev_nil_right,
    lev_nil_right, lev_nil_left]
  simp

theorem similarity_ne_of_ne {d m n : Nat} (hd : d ≠ 0) (hmn : m ≠ n) :
    similarity d m ≠ similarity d n := by
  unfold similarity
  intro h
  have h2 : (d : ℚ) / m = (d : ℚ) / n := by linarith
  have hdq : (d : ℚ) ≠ 0 := Nat.cast_ne_zero.mpr hd
  rcases eq_or_ne m 0 with hm | hm
  · have hn : n ≠ 0 := by omega
    rw [hm] at h2
    simp only [Nat.cast_zero, div_zero] at h2
    exact div_ne_zero hdq (Nat.cast_ne_zero.mpr hn) h2.symm
  · rcases eq_or_ne n 0 with hn | hn
    · rw [hn] at h2
      simp only [Nat.cast_zero, div_zero] at h2
      exact div_ne_zero hdq (Nat.cast_ne_zero.mpr hm) h2
    · have hmq : (m : ℚ) ≠ 0 := Nat.cast_ne_zero.mpr hm
      have hnq : (n : ℚ) ≠ 0 := Nat.cast_ne_zero.mpr hn
      rw [div_eq_div_iff hmq hnq] at h2
      have := mul_left_cancel₀ hdq h2
      exact hmn (Nat.cast_inj.mp this).symm

theorem damerau_levenshtein_ne_zero_of_length_ne {a b : List String}
    (h : a.length ≠ b.length) : damerau_levenshtein a b ≠ 0 := by
  intro h0
  exact h (congrArg List.length (eq_of_damerau_levenshtein_eq_zero h0))

/-- C1: for every pair of token sequences `a` (length m) and `b` (length n),
`damerau_levenshtein a b` is the minimum number of single-token insertions,
deletions, or substitutions needed to transform `a` into `b` (least chain
length in `CostedEdits`), and it is computed via the Wagner-Fischer table:
row 0 is `0..n`, column 0 is `0..m`, cell `(i, j)` is the diagonal when the
tokens match and otherwise `1 + min` of the up, left, and diagonal
neighbours, the result being cell `(m, n)`. -/
theorem claim_C1_min_edit_distance (a b : List String) :
    CostedEdits (damerau_levenshtein a b) a b ∧
    (∀ n, CostedEdits n a b → damerau_levenshtein a b ≤ n) ∧
    damerau_levenshtein a b = dlEntry a b a.length b.length ∧
    (∀ j, dlEntry a b 0 j = j) ∧
    (∀ i, dlEntry a b i 0 = i) ∧
    (∀ i j, dlEntry a b (i + 1) (j + 1) =
      if a.getD i "" = b.getD j "" then dlEntry a b i j
      else 1 + min (min (dlEntry a b i (j + 1)) (dlEntry a b (i + 1) j))
        (dlEntry a b i j)) := by
  refine ⟨costedEdits_damerau_levenshtein a b,
    fun n h => damerau_levenshtein_le_of_costedEdits h, rfl, ?_, ?_, ?_⟩
  · intro j
    cases j with
    | zero => exact dlEntry_right_zero a b 0
    | succ j => exact dlEntry_zero_succ a b j
  · intro i
    exact dlEntry_right_zero a b i
  · intro i j
    rw [dlEntry_succ_succ]
    split <;> omega

/-- Witness for C1 at a concrete input: the distance from `["a"]` to `["b"]`
is realised by an edit chain and is at most the one-substitution chain. -/
theorem claim_C1_witness :
    CostedEdits (damerau_levenshtein ["a"] ["b"]) ["a"] ["b"] ∧
    damerau_levenshtein ["a"] ["b"] ≤ 1 :=
  ⟨(claim_C1_min_edit_distance ["a"] ["b"]).1,
   (claim_C1_min_edit_distance ["a"] ["b"]).2.1 1
     (costedEdits_single (EditStep.sub [] [] "a" "b"))⟩

/-- C3: the comparison facade returns the pair of the distance and the
similarity normalized by the first trace's length only; for unequal-length
traces swapping the argument order leaves the distance unchanged but
changes the similarity value. -/
theorem claim_C3_facade_asymmetry (a b : List String) :
    damerau_levenshtein_on_logs a b =
      (damerau_levenshtein a b, similarity (damerau_levenshtein a b) a.length) ∧
    (a.length ≠ b.length →
      (damerau_levenshtein_on_logs a b).1 = (damerau_levenshtein_on_logs b a).1 ∧
      (damerau_levenshtein_on_logs a b).2 ≠ (damerau_levenshtein_on_logs b a).2) := by
  refine ⟨rfl, fun hlen => ⟨damerau_levenshtein_comm a b, ?_⟩⟩
  show similarity (damerau_levenshtein a b) a.length ≠
    similarity (damerau_levenshtein b a) b.length
  rw [← damerau_levenshtein_comm a b]
  exact similarity_ne_of_ne (damerau_levenshtein_ne_zero_of_length_ne hlen) hlen

/-- Witness for C3 at a concrete input: `["x", "y"]` versus `["x"]`. -/
theorem claim_C3_witness :
    (damerau_levenshtein_on_logs ["x", "y"] ["x"]).1 =
      (damerau_levenshtein_on_logs ["x"] ["x", "y"]).1 ∧
    (damerau_levenshtein_on_logs ["x", "y"] ["x"]).2 ≠
      (damerau_levenshtein_on_logs ["x"] ["x", "y"]).2 :=
  (claim_C3_facade_asymmetry ["x", "y"] ["x"]).2 (by decide)

/-- C5: comparing against an empty sequence yields the other sequence's
length, in both argument positions. -/
theorem claim_C5_empty_boundary :
    (∀ b : List String, damerau_levenshtein [] b = b.length) ∧
    (∀ a : List String, damerau_levenshtein a [] = a.length) :=
  ⟨damerau_levenshtein_nil_left, damerau_levenshtein_nil_right⟩

/-- C6: no transposition edit is ever applied: for distinct tokens `x` and
`y` the distance between `[x, y]` and `[y, x]` is 2 (two substitutions),
not a single cost-1 transposition. -/
theorem claim_C6_no_transposition (x y : String) (h : x ≠ y) :
    damerau_levenshtein [x, y] [y, x] = 2 :=
  damerau_levenshtein_swap_pair x y h

/-- Witness for C6 at the concrete tokens `"a"` and `"b"`. -/
theorem claim_C6_witness : damerau_levenshtein ["a", "b"] ["b", "a"] = 2 :=
  claim_C6_no_transposition "a" "b" (by decide)

/-- C7: the distance is symmetric in its two arguments. -/
theorem claim_C7_symmetry (a b : List String) :
    damerau_levenshtein a b = damerau_levenshtein b a :=
  damerau_levenshtein_comm a b

/-- C8: the distance satisfies the triangle inequality. -/
theorem claim_C8_triangle (a b c : List String) :
    damerau_levenshtein a c ≤ damerau_levenshtein a b + damerau_levenshtein b c :=
  damerau_levenshtein_triangle a b c

/-- C9: the distance of every trace to itself (including the empty trace)
is 0, and the distance between two same-length traces that differ in
exactly one position is exactly 1. -/
theorem claim_C9_identity_single_subst :
    (∀ t : List String, damerau_levenshtein t t = 0) ∧
    (∀ a b : List String, a.length = b.length → ∀ k, k < a.length →
      a.getD k "" ≠ b.getD k "" →
      (∀ i, i < a.length → i ≠ k → a.getD i "" = b.getD i "") →
      damerau_levenshtein a b = 1) :=
  ⟨damerau_levenshtein_self, fun a b hlen k hk hdiff hsame =>
    damerau_levenshtein_single_diff a b hlen k hk hdiff hsame⟩

/-- Witness for C9 at concrete inputs: the empty trace against itself, and
two two-token traces differing only in position 1. -/
theorem claim_C9_witness :
    damerau_levenshtein [] [] = 0 ∧
    damerau_levenshtein ["a", "b"] ["a", "c"] = 1 :=
  ⟨claim_C9_identity_single_subst.1 [],
   claim_C9_identity_single_subst.2 ["a", "b"] ["a", "c"] (by decide) 1
     (by decide) (by decide) (by decide)⟩

/-- C10: the library function `damerau_levenshtein` and the duplicate
implementation `distance_polars` in `main.rs` compute the same distance,
with `distance_polars` always returning it as a success. -/
theorem claim_C10_distance_polars_refines (log1 log2 : List String) :
    distance_polars log1 log2 = Except.ok (damerau_levenshtein log1 log2) :=
  distance_polars_eq_ok log1 log2

end SimilarityMetrics
